import Mathlib

/-!
Verification of the byte-level BPE tokenizer (src/src/main.rs).

The core operations `train`, `build_vocab` (here `buildVocab`), `get_stats`
(here `getStats`), `merge`, `encode` and `decode` are shallowly embedded over
`List Nat`:

* a `u32` symbol is a `Nat` (all arithmetic in the source stays far below
  `2^32`, so no wrap-around is reachable and `Nat` is exact);
* a Rust `&str` is represented by the list of its UTF-8 bytes, each `< 256`
  (equality of valid-UTF-8 strings is equality of their byte lists);
* `HashMap` values are association lists.  `insert` replaces the value of an
  existing key, otherwise appends; `get`/`contains_key` scan the list.  The
  tie-break of `max_by_key` over the map's unspecified iteration order is
  modelled canonically (first-occurrence `getStats` order, last maximum kept,
  as `Iterator::max_by_key` documents); the definition `trainOrd` exposes the
  iteration order as an explicit parameter so that order dependence can be
  stated and settled;
* a Rust index panic (`map[&k]` on a missing key) is `Option.none`: `decode`
  and `buildVocab` return `Option`, and `none` is the panic.
-/

namespace BPE

/-- `HashMap::get` on an association list: first entry with the key. -/
def lookupA {κ α : Type} [DecidableEq κ] : List (κ × α) → κ → Option α
  | [], _ => none
  | (k, v) :: rest, q => if k = q then some v else lookupA rest q

/-- `HashMap::insert` on an association list: replace the value of an existing
key, otherwise append the new entry. -/
def insertA {κ α : Type} [DecidableEq κ] : List (κ × α) → κ → α → List (κ × α)
  | [], q, w => [(q, w)]
  | (k, v) :: rest, q, w => if k = q then (q, w) :: rest else (k, v) :: insertA rest q w

/-- The merge table `HashMap<(u32, u32), u32>`. -/
abbrev Table : Type := List ((Nat × Nat) × Nat)

/-- The vocabulary `HashMap<u32, Vec<u8>>`. -/
abbrev Vocab : Type := List (Nat × List Nat)

/-- `ids.windows(2)` as a list of pairs: the adjacent pairs of a sequence. -/
def pairsOf : List Nat → List (Nat × Nat)
  | x :: y :: rest => (x, y) :: pairsOf (y :: rest)
  | _ => []

/-- `*counts.entry(pair).or_default() += 1` on the association-list model. -/
def bumpCount : List ((Nat × Nat) × Nat) → Nat × Nat → List ((Nat × Nat) × Nat)
  | [], p => [(p, 1)]
  | (q, c) :: rest, p => if q = p then (q, c + 1) :: rest else (q, c) :: bumpCount rest p

/-- `get_stats`: counts of the adjacent pairs, keyed in first-occurrence order
(the canonical model of the hash map's iteration order). -/
def getStats (ids : List Nat) : List ((Nat × Nat) × Nat) :=
  (pairsOf ids).foldl bumpCount []

/-- `stats.iter().max_by_key(|(_, v)| v)`: of several equally maximal entries
the last one in iteration order is returned. -/
def selectMax : List ((Nat × Nat) × Nat) → Option ((Nat × Nat) × Nat)
  | [] => none
  | x :: rest => some (rest.foldl (fun acc y => if acc.2 ≤ y.2 then y else acc) x)

/-- `merge`: one left-to-right pass replacing every non-overlapping occurrence
of `p` by `idx`.  The two-element pattern is the loop's `i < ids.len() - 1`
test; a match consumes both symbols (cursor advances by 2). -/
def merge : List Nat → Nat × Nat → Nat → List Nat
  | x :: y :: rest, p, idx =>
    if x = p.1 ∧ y = p.2 then idx :: merge rest p idx
    else x :: merge (y :: rest) p idx
  | ids, _, _ => ids

/-- The training loop, with the iteration order of the statistics map made
explicit as `reorder` (the canonical order passes `fun s => s`).  `i` is the
loop counter (the next merge gets id `256 + i`), `n` the iterations left. -/
def trainLoop (reorder : List ((Nat × Nat) × Nat) → List ((Nat × Nat) × Nat)) :
    List Nat → Table → Nat → Nat → List Nat × Table
  | ids, merges, _, 0 => (ids, merges)
  | ids, merges, i, n + 1 =>
    match selectMax (reorder (getStats ids)) with
    | some (pair, _count) =>
      trainLoop reorder (merge ids pair (256 + i)) (insertA merges pair (256 + i)) (i + 1) n
    | none => (ids, merges)

/-- `train` under an explicit statistics iteration order. -/
def trainOrd (reorder : List ((Nat × Nat) × Nat) → List ((Nat × Nat) × Nat))
    (ids : List Nat) (numMerges : Nat) : Table :=
  (trainLoop reorder ids [] 0 numMerges).2

/-- `train` with the canonical iteration order. -/
def train (ids : List Nat) (numMerges : Nat) : Table :=
  trainOrd (fun s => s) ids numMerges

/-- The `vocab` map after `for idx in 0..256 { vocab.insert(idx, vec![idx]) }`. -/
def initVocab : Vocab := (List.range 256).map fun b => (b, [b])

/-- `merges.sort_by_key(|(idx, _, _)| idx)`, modelled by a stable sort. -/
def sortEntries (entries : List (Nat × Nat × Nat)) : List (Nat × Nat × Nat) :=
  List.insertionSort (fun a b => a.1 ≤ b.1) entries

/-- The second loop of `build_vocab`: `vocab[&p0]`/`vocab[&p1]` panic (here:
`none`) when the constituent is absent. -/
def buildVocabAux : Vocab → List (Nat × Nat × Nat) → Option Vocab
  | v, [] => some v
  | v, (idx, p0, p1) :: rest =>
    match lookupA v p0, lookupA v p1 with
    | some a, some b => buildVocabAux (insertA v idx (a ++ b)) rest
    | _, _ => none

/-- `build_vocab`: byte entries, then the merge rules in ascending id order. -/
def buildVocab (merges : Table) : Option Vocab :=
  buildVocabAux initVocab (sortEntries (merges.map fun e => (e.2, e.1.1, e.1.2)))

/-- The strict order on `merges.get(k)` values used by `min_by_key`
(`Option<&u32>` ordering; all compared keys are present after the filter). -/
def optLtB : Option Nat → Option Nat → Bool
  | none, some _ => true
  | some a, some b => decide (a < b)
  | _, none => false

/-- `min_by_key(|&k| merges.get(k))`: of several equally minimal entries the
first one is returned. -/
def minByVal (m : Table) : List (Nat × Nat) → Option (Nat × Nat)
  | [] => none
  | q :: rest =>
    some (rest.foldl (fun acc y => if optLtB (lookupA m y) (lookupA m acc) then y else acc) q)

/-- One selection of the encode loop: among the adjacent pairs that are keys
of the merge table, the one with the smallest assigned id. -/
def encodeSel (m : Table) (ids : List Nat) : Option (Nat × Nat) :=
  minByVal m ((pairsOf ids).filter fun q => (lookupA m q).isSome)

/-- A selected pair is one of the adjacent pairs and is a key of the table. -/
theorem minByVal_mem (m : Table) :
    ∀ l pair, minByVal m l = some pair → pair ∈ l := by
  have fold : ∀ (rest : List (Nat × Nat)) (q : Nat × Nat),
      rest.foldl (fun acc y => if optLtB (lookupA m y) (lookupA m acc) then y else acc) q
        ∈ q :: rest := by
    intro rest
    induction rest with
    | nil => intro q; simp [List.foldl]
    | cons y ys ih =>
      intro q
      simp only [List.foldl]
      split
      · have := ih y
        simp only [List.mem_cons] at this ⊢
        tauto
      · have := ih q
        simp only [List.mem_cons] at this ⊢
        tauto
  intro l pair h
  cases l with
  | nil => simp [minByVal] at h
  | cons q rest =>
    simp only [minByVal, Option.some.injEq] at h
    subst h
    exact fold rest q

theorem encodeSel_mem (m : Table) (ids : List Nat) (pair : Nat × Nat)
    (h : encodeSel m ids = some pair) :
    pair ∈ pairsOf ids ∧ (lookupA m pair).isSome := by
  have hmem := minByVal_mem m _ _ h
  have := List.mem_filter.mp hmem
  exact ⟨this.1, by simpa using this.2⟩

theorem merge_length_le (p : Nat × Nat) (idx : Nat) :
    ∀ ids : List Nat, (merge ids p idx).length ≤ ids.length
  | [] => by simp [merge]
  | [x] => by simp [merge]
  | x :: y :: rest => by
    by_cases h : x = p.1 ∧ y = p.2
    · have ih := merge_length_le p idx rest
      simp only [merge, if_pos h, List.length_cons]
      omega
    · have ih := merge_length_le p idx (y :: rest)
      simp only [merge, if_neg h, List.length_cons]
      simp only [List.length_cons] at ih
      omega

theorem merge_length_lt (p : Nat × Nat) (idx : Nat) :
    ∀ ids : List Nat, p ∈ pairsOf ids → (merge ids p idx).length < ids.length
  | [] => by simp [pairsOf]
  | [x] => by simp [pairsOf]
  | x :: y :: rest => by
    intro hp
    by_cases h : x = p.1 ∧ y = p.2
    · have hle := merge_length_le p idx rest
      simp only [merge, if_pos h, List.length_cons]
      omega
    · have hp' : p ∈ pairsOf (y :: rest) := by
        simp only [pairsOf, List.mem_cons] at hp
        rcases hp with hp | hp
        · exact absurd ⟨congrArg Prod.fst hp.symm, congrArg Prod.snd hp.symm⟩ h
        · exact hp
      have ih := merge_length_lt p idx (y :: rest) hp'
      simp only [merge, if_neg h, List.length_cons]
      simp only [List.length_cons] at ih
      omega

/-- The encode loop: repeatedly apply the earliest-learned applicable merge,
stopping when the sequence is shorter than 2 or nothing applies.  Terminates
because every applied merge strictly shortens the sequence. -/
def encode (m : Table) (ids : List Nat) : List Nat :=
  if 2 ≤ ids.length then
    match h : encodeSel m ids with
    | some pair => encode m (merge ids pair ((lookupA m pair).getD 0))
    | none => ids
  else ids
termination_by ids.length
decreasing_by
  exact merge_length_lt pair _ ids (encodeSel_mem m ids pair h).1

/-- `decode`'s byte level: concatenation of each id's vocabulary entry;
`none` is the panic of `vocab[idx]` on a missing id. -/
def decode (vocab : Vocab) : List Nat → Option (List Nat)
  | [] => some []
  | idx :: rest =>
    match lookupA vocab idx, decode vocab rest with
    | some bs, some r => some (bs ++ r)
    | _, _ => none

theorem pairsOf_eq_nil : ∀ l : List Nat, pairsOf l = [] ↔ l.length ≤ 1
  | [] => by simp [pairsOf]
  | [_] => by simp [pairsOf]
  | _ :: _ :: _ => by simp [pairsOf]

theorem mem_of_mem_pairsOf :
    ∀ {l : List Nat} {q : Nat × Nat}, q ∈ pairsOf l → q.1 ∈ l ∧ q.2 ∈ l
  | [], _, h => by simp [pairsOf] at h
  | [_], _, h => by simp [pairsOf] at h
  | x :: y :: rest, q, h => by
    simp only [pairsOf, List.mem_cons] at h
    rcases h with h | h
    · subst h; simp
    · have := mem_of_mem_pairsOf h
      simp only [List.mem_cons] at this ⊢
      tauto

theorem mem_pairsOf_cons {q : Nat × Nat} (a : Nat) :
    ∀ {l : List Nat}, q ∈ pairsOf l → q ∈ pairsOf (a :: l)
  | [], h => by simp [pairsOf] at h
  | x :: rest, h => by
    simp only [pairsOf, List.mem_cons]
    exact Or.inr h

theorem mem_merge (p : Nat × Nat) (idx : Nat) :
    ∀ l z, z ∈ merge l p idx → z = idx ∨ z ∈ l
  | [], z, h => by simp [merge] at h
  | [x], z, h => by
    simp only [merge] at h
    exact Or.inr h
  | x :: y :: rest, z, h => by
    by_cases hm : x = p.1 ∧ y = p.2
    · simp only [merge, if_pos hm, List.mem_cons] at h
      rcases h with h | h
      · exact Or.inl h
      · rcases mem_merge p idx rest z h with h | h
        · exact Or.inl h
        · exact Or.inr (by simp [h])
    · simp only [merge, if_neg hm, List.mem_cons] at h
      rcases h with h | h
      · exact Or.inr (by simp [h])
      · rcases mem_merge p idx (y :: rest) z h with h | h
        · exact Or.inl h
        · simp only [List.mem_cons] at h ⊢
          tauto

theorem merge_head (p : Nat × Nat) (idx : Nat) (x : Nat) :
    ∀ l, ∃ h t, merge (x :: l) p idx = h :: t ∧ (h = idx ∨ h = x)
  | [] => ⟨x, [], by simp [merge], Or.inr rfl⟩
  | y :: rest => by
    by_cases hm : x = p.1 ∧ y = p.2
    · exact ⟨idx, merge rest p idx, by simp [merge, if_pos hm], Or.inl rfl⟩
    · exact ⟨x, merge (y :: rest) p idx, by simp [merge, if_neg hm], Or.inr rfl⟩

theorem pairsOf_merge (p : Nat × Nat) (idx : Nat) :
    ∀ l q, q ∈ pairsOf (merge l p idx) → q.1 = idx ∨ q.2 = idx ∨ q ∈ pairsOf l
  | [], q, h => by simp [merge, pairsOf] at h
  | [x], q, h => by simp [merge, pairsOf] at h
  | x :: y :: rest, q, h => by
    by_cases hm : x = p.1 ∧ y = p.2
    · rw [merge, if_pos hm] at h
      cases hM : merge rest p idx with
      | nil => rw [hM] at h; simp [pairsOf] at h
      | cons m ms =>
        rw [hM] at h
        simp only [pairsOf, List.mem_cons] at h
        rcases h with h | h
        · exact Or.inl (by simp [h])
        · have h' : q ∈ pairsOf (merge rest p idx) := by rw [hM]; exact h
          rcases pairsOf_merge p idx rest q h' with h | h | h
          · exact Or.inl h
          · exact Or.inr (Or.inl h)
          · exact Or.inr (Or.inr (mem_pairsOf_cons x (mem_pairsOf_cons y h)))
    · rw [merge, if_neg hm] at h
      obtain ⟨hd, tl, hEq, hhd2⟩ := merge_head p idx y rest
      rw [hEq] at h
      simp only [pairsOf, List.mem_cons] at h
      rcases h with h | h
      · rcases hhd2 with hh | hh
        · exact Or.inr (Or.inl (by simp [h, hh]))
        · subst hh
          exact Or.inr (Or.inr (by simp [pairsOf, h]))
      · have h' : q ∈ pairsOf (merge (y :: rest) p idx) := by rw [hEq]; exact h
        rcases pairsOf_merge p idx (y :: rest) q h' with h | h | h
        · exact Or.inl h
        · exact Or.inr (Or.inl h)
        · exact Or.inr (Or.inr (mem_pairsOf_cons x h))

theorem merge_removes (p : Nat × Nat) (idx : Nat) (h1 : idx ≠ p.1) (h2 : idx ≠ p.2) :
    ∀ l, p ∉ pairsOf (merge l p idx)
  | [] => by simp [merge, pairsOf]
  | [x] => by simp [merge, pairsOf]
  | x :: y :: rest => by
    by_cases hm : x = p.1 ∧ y = p.2
    · rw [merge, if_pos hm]
      cases hM : merge rest p idx with
      | nil => simp [pairsOf]
      | cons m ms =>
        intro h
        simp only [pairsOf, List.mem_cons] at h
        rcases h with h | h
        · exact h1 (congrArg Prod.fst h).symm
        · exact merge_removes p idx h1 h2 rest (by rw [hM]; exact h)
    · rw [merge, if_neg hm]
      obtain ⟨hd, tl, hEq, hhd⟩ := merge_head p idx y rest
      rw [hEq]
      intro h
      simp only [pairsOf, List.mem_cons] at h
      rcases h with h | h
      · rcases hhd with hh | hh
        · subst hh
          exact h2 (congrArg Prod.snd h).symm
        · subst hh
          exact hm ⟨(congrArg Prod.fst h).symm, (congrArg Prod.snd h).symm⟩
      · exact merge_removes p idx h1 h2 (y :: rest) (by rw [hEq]; exact h)

/-- The fold inside `selectMax`: the result is the accumulator or a list
element, and its count bounds every count seen. -/
theorem selectFold_spec :
    ∀ (rest : List ((Nat × Nat) × Nat)) (acc : (Nat × Nat) × Nat),
      (rest.foldl (fun acc y => if acc.2 ≤ y.2 then y else acc) acc = acc ∨
        rest.foldl (fun acc y => if acc.2 ≤ y.2 then y else acc) acc ∈ rest) ∧
      acc.2 ≤ (rest.foldl (fun acc y => if acc.2 ≤ y.2 then y else acc) acc).2 ∧
      ∀ y ∈ rest, y.2 ≤ (rest.foldl (fun acc y => if acc.2 ≤ y.2 then y else acc) acc).2
  | [], acc => by simp
  | y :: ys, acc => by
    simp only [List.foldl]
    by_cases hy : acc.2 ≤ y.2
    · rw [if_pos hy]
      obtain ⟨hmem, hacc, hall⟩ := selectFold_spec ys y
      refine ⟨?_, le_trans hy hacc, ?_⟩
      · rcases hmem with h | h
        · exact Or.inr (by simp [h])
        · exact Or.inr (by simp [h])
      · intro z hz
        simp only [List.mem_cons] at hz
        rcases hz with hz | hz
        · subst hz; exact hacc
        · exact hall z hz
    · rw [if_neg hy]
      obtain ⟨hmem, hacc, hall⟩ := selectFold_spec ys acc
      refine ⟨?_, hacc, ?_⟩
      · rcases hmem with h | h
        · exact Or.inl h
        · exact Or.inr (by simp [h])
      · intro z hz
        simp only [List.mem_cons] at hz
        rcases hz with hz | hz
        · subst hz; omega
        · exact hall z hz

theorem selectMax_mem (l : List ((Nat × Nat) × Nat)) (x : (Nat × Nat) × Nat)
    (h : selectMax l = some x) : x ∈ l := by
  cases l with
  | nil => simp [selectMax] at h
  | cons a rest =>
    simp only [selectMax, Option.some.injEq] at h
    obtain ⟨hmem, _, _⟩ := selectFold_spec rest a
    rcases hmem with hm | hm
    · rw [h] at hm; simp [hm]
    · rw [h] at hm; simp [hm]

theorem selectMax_le (l : List ((Nat × Nat) × Nat)) (x : (Nat × Nat) × Nat)
    (h : selectMax l = some x) : ∀ y ∈ l, y.2 ≤ x.2 := by
  cases l with
  | nil => simp [selectMax] at h
  | cons a rest =>
    simp only [selectMax, Option.some.injEq] at h
    obtain ⟨_, hacc, hall⟩ := selectFold_spec rest a
    intro y hy
    simp only [List.mem_cons] at hy
    rcases hy with hy | hy
    · subst hy; rw [← h]; exact hacc
    · rw [← h]; exact hall y hy

theorem selectMax_eq_none (l : List ((Nat × Nat) × Nat)) :
    selectMax l = none ↔ l = [] := by
  cases l <;> simp [selectMax]

/-- When exactly one entry attains the maximal count, `selectMax` returns it
under every iteration order. -/
theorem selectMax_unique (l : List ((Nat × Nat) × Nat)) (x : (Nat × Nat) × Nat)
    (hx : x ∈ l) (hmax : ∀ y ∈ l, y ≠ x → y.2 < x.2) : selectMax l = some x := by
  cases hsel : selectMax l with
  | none =>
    rw [selectMax_eq_none] at hsel
    subst hsel
    simp at hx
  | some r =>
    have hrmem := selectMax_mem l r hsel
    have hle := selectMax_le l r hsel
    by_cases hrx : r = x
    · rw [hrx]
    · have h1 : r.2 < x.2 := hmax r hrmem hrx
      have h2 : x.2 ≤ r.2 := hle x hx
      omega

theorem bumpCount_keys (p : Nat × Nat) :
    ∀ (acc : List ((Nat × Nat) × Nat)) (e : (Nat × Nat) × Nat),
      e ∈ bumpCount acc p → e.1 = p ∨ e.1 ∈ acc.map Prod.fst
  | [], e, h => by
    simp only [bumpCount, List.mem_singleton] at h
    exact Or.inl (by simp [h])
  | (q, c) :: rest, e, h => by
    by_cases hq : q = p
    · simp only [bumpCount, if_pos hq, List.mem_cons] at h
      rcases h with h | h
      · exact Or.inl (by simp [h, hq])
      · exact Or.inr (by simp; exact Or.inr ⟨e.2, by simp [h]⟩)
    · simp only [bumpCount, if_neg hq, List.mem_cons] at h
      rcases h with h | h
      · exact Or.inr (by simp [h])
      · rcases bumpCount_keys p rest e h with h | h
        · exact Or.inl h
        · simp only [List.map_cons, List.mem_cons] at h ⊢
          tauto

theorem foldl_bump_keys :
    ∀ (ps : List (Nat × Nat)) (acc : List ((Nat × Nat) × Nat)) (e : (Nat × Nat) × Nat),
      e ∈ ps.foldl bumpCount acc → e.1 ∈ acc.map Prod.fst ∨ e.1 ∈ ps
  | [], acc, e, h => by
    simp only [List.foldl] at h
    exact Or.inl (List.mem_map.mpr ⟨e, h, rfl⟩)
  | p :: ps, acc, e, h => by
    simp only [List.foldl] at h
    rcases foldl_bump_keys ps (bumpCount acc p) e h with h | h
    · rcases List.mem_map.mp h with ⟨e2, he2, hfst⟩
      rcases bumpCount_keys p acc e2 he2 with h2 | h2
      · exact Or.inr (by simp [← hfst, h2])
      · exact Or.inl (by rw [← hfst]; exact h2)
    · exact Or.inr (by simp [h])

theorem mem_getStats (ids : List Nat) (e : (Nat × Nat) × Nat)
    (h : e ∈ getStats ids) : e.1 ∈ pairsOf ids := by
  rcases foldl_bump_keys (pairsOf ids) [] e h with h | h
  · simp at h
  · exact h

theorem bumpCount_ne_nil (acc : List ((Nat × Nat) × Nat)) (p : Nat × Nat) :
    bumpCount acc p ≠ [] := by
  cases acc with
  | nil => simp [bumpCount]
  | cons e rest =>
    obtain ⟨q, c⟩ := e
    by_cases hq : q = p <;> simp [bumpCount, hq]

theorem foldl_bump_ne_nil :
    ∀ (ps : List (Nat × Nat)) (acc : List ((Nat × Nat) × Nat)),
      acc ≠ [] → ps.foldl bumpCount acc ≠ []
  | [], acc, h => h
  | p :: ps, acc, _ => by
    simp only [List.foldl]
    exact foldl_bump_ne_nil ps (bumpCount acc p) (bumpCount_ne_nil acc p)

theorem getStats_eq_nil (ids : List Nat) : getStats ids = [] ↔ pairsOf ids = [] := by
  constructor
  · intro h
    cases hp : pairsOf ids with
    | nil => rfl
    | cons p ps =>
      rw [getStats, hp] at h
      simp only [List.foldl] at h
      exact absurd h (foldl_bump_ne_nil ps (bumpCount [] p) (bumpCount_ne_nil [] p))
  · intro h
    rw [getStats, h]
    rfl

theorem lookupA_insertA {κ α : Type} [DecidableEq κ] :
    ∀ (l : List (κ × α)) (k q : κ) (w : α),
      lookupA (insertA l k w) q = if k = q then some w else lookupA l q
  | [], k, q, w => by simp [insertA, lookupA]
  | (k1, v) :: rest, k, q, w => by
    by_cases hk : k1 = k
    · subst hk
      by_cases hq : k1 = q <;> simp [insertA, lookupA, hq]
    · by_cases hq : k1 = q
      · subst hq
        have hkq : ¬k = k1 := fun h => hk h.symm
        simp [insertA, lookupA, hk, hkq]
      · simp [insertA, lookupA, hk, hq, lookupA_insertA rest k q w]

theorem lookupA_eq_none {κ α : Type} [DecidableEq κ] :
    ∀ (l : List (κ × α)) (q : κ), lookupA l q = none ↔ q ∉ l.map Prod.fst
  | [], q => by simp [lookupA]
  | (k, v) :: rest, q => by
    by_cases hk : k = q
    · subst hk
      simp [lookupA]
    · simp only [lookupA, if_neg hk, List.map_cons, List.mem_cons]
      rw [lookupA_eq_none rest q]
      constructor
      · intro h hh
        rcases hh with hh | hh
        · exact hk hh.symm
        · exact h hh
      · intro h hh
        exact h (Or.inr hh)

theorem lookupA_mem {κ α : Type} [DecidableEq κ] :
    ∀ (l : List (κ × α)) (q : κ) (w : α), lookupA l q = some w → (q, w) ∈ l
  | [], q, w, h => by simp [lookupA] at h
  | (k, v) :: rest, q, w, h => by
    by_cases hk : k = q
    · subst hk
      have hv : v = w := by simpa [lookupA] using h
      simp [hv]
    · simp only [lookupA, if_neg hk] at h
      simp only [List.mem_cons]
      exact Or.inr (lookupA_mem rest q w h)

theorem insertA_not_mem {κ α : Type} [DecidableEq κ] :
    ∀ (l : List (κ × α)) (k : κ) (w : α),
      k ∉ l.map Prod.fst → insertA l k w = l ++ [(k, w)]
  | [], k, w, _ => by simp [insertA]
  | (k1, v) :: rest, k, w, h => by
    simp only [List.map_cons, List.mem_cons, not_or] at h
    obtain ⟨h1, h2⟩ := h
    have hne : ¬k1 = k := fun hh => h1 hh.symm
    simp only [insertA, if_neg hne, List.cons_append, List.cons.injEq, true_and]
    exact insertA_not_mem rest k w h2

theorem lookupA_diag :
    ∀ (l : List Nat) (x : Nat),
      lookupA (l.map fun b => (b, [b])) x = if x ∈ l then some [x] else none
  | [], x => by simp [lookupA]
  | b :: rest, x => by
    by_cases hb : b = x
    · subst hb
      simp [lookupA]
    · simp only [List.map_cons, lookupA, if_neg hb, lookupA_diag rest x, List.mem_cons]
      have : ¬x = b := fun h => hb h.symm
      simp [this]

theorem initVocab_lookup (x : Nat) (h : x < 256) : lookupA initVocab x = some [x] := by
  rw [initVocab, lookupA_diag]
  simp [List.mem_range, h]

/-- Shape of the table `train` builds: consecutive ids from `n`, each merge
rule's constituents strictly below the id it introduces. -/
def TableWF : Nat → Table → Prop
  | _, [] => True
  | n, (p, idx) :: rest => idx = n ∧ p.1 < n ∧ p.2 < n ∧ TableWF (n + 1) rest

theorem tableWF_bounds :
    ∀ (ms : Table) (n : Nat), TableWF n ms →
      ∀ e ∈ ms, e.1.1 < e.2 ∧ e.1.2 < e.2 ∧ n ≤ e.2 ∧ e.2 < n + ms.length
  | [], n, _, e, he => by simp at he
  | (p, idx) :: rest, n, hwf, e, he => by
    obtain ⟨hidx, h1, h2, hrest⟩ := hwf
    simp only [List.mem_cons] at he
    rcases he with he | he
    · subst he
      simp only [List.length_cons]
      omega
    · have := tableWF_bounds rest (n + 1) hrest e he
      simp only [List.length_cons]
      omega

theorem tableWF_append :
    ∀ (ms : Table) (n idx : Nat) (p : Nat × Nat),
      TableWF n ms → idx = n + ms.length → p.1 < idx → p.2 < idx →
      TableWF n (ms ++ [(p, idx)])
  | [], n, idx, p, _, hidx, h1, h2 => by
    have hidx2 : idx = n := by simpa using hidx
    exact ⟨hidx2, by omega, by omega, trivial⟩
  | (q, j) :: rest, n, idx, p, hwf, hidx, h1, h2 => by
    obtain ⟨hj, hq1, hq2, hrest⟩ := hwf
    simp only [List.length_cons] at hidx
    refine ⟨hj, hq1, hq2, ?_⟩
    exact tableWF_append rest (n + 1) idx p hrest (by omega) h1 h2

theorem tableWF_map_snd :
    ∀ (ms : Table) (n : Nat), TableWF n ms → ms.map Prod.snd = List.range' n ms.length
  | [], n, _ => by simp
  | (p, idx) :: rest, n, hwf => by
    obtain ⟨hidx, _, _, hrest⟩ := hwf
    simp only [List.map_cons, List.length_cons, List.range'_succ]
    rw [hidx, tableWF_map_snd rest (n + 1) hrest]

theorem tableWF_sorted :
    ∀ (ms : Table) (n : Nat), TableWF n ms →
      List.Sorted (fun a b : Nat × Nat × Nat => a.1 ≤ b.1)
        (ms.map fun e => (e.2, e.1.1, e.1.2))
  | [], n, _ => by simp
  | (p, idx) :: rest, n, hwf => by
    obtain ⟨hidx, _, _, hrest⟩ := hwf
    rw [List.map_cons, List.sorted_cons]
    constructor
    · intro b hb
      rcases List.mem_map.mp hb with ⟨e, he, heq⟩
      have := tableWF_bounds rest (n + 1) hrest e he
      rw [← heq]
      simp only
      omega
    · exact tableWF_sorted rest (n + 1) hrest

theorem sortEntries_tableWF (ms : Table) (n : Nat) (h : TableWF n ms) :
    sortEntries (ms.map fun e => (e.2, e.1.1, e.1.2)) =
      ms.map fun e => (e.2, e.1.1, e.1.2) :=
  List.Sorted.insertionSort_eq (tableWF_sorted ms n h)

/-- Processing a well-formed table in ascending id order always succeeds:
every constituent is already present when looked up, smaller ids keep their
entries, and afterwards each rule's entry is the concatenation of its
constituents' entries. -/
theorem buildVocabAux_wf :
    ∀ (ms : Table) (n : Nat) (v : Vocab),
      TableWF n ms →
      (∀ x, x < n → ∃ bs, lookupA v x = some bs) →
      ∃ vf, buildVocabAux v (ms.map fun e => (e.2, e.1.1, e.1.2)) = some vf ∧
        (∀ x, x < n → lookupA vf x = lookupA v x) ∧
        (∀ e ∈ ms, ∃ a b, lookupA vf e.1.1 = some a ∧ lookupA vf e.1.2 = some b ∧
          lookupA vf e.2 = some (a ++ b))
  | [], n, v, _, _ => ⟨v, rfl, fun _ _ => rfl, by simp⟩
  | (p, idx) :: rest, n, v, hwf, hdom => by
    obtain ⟨hidx, h1, h2, hrest⟩ := hwf
    obtain ⟨a, ha⟩ := hdom p.1 h1
    obtain ⟨b, hb⟩ := hdom p.2 h2
    have hstep : buildVocabAux v (((p, idx) :: rest).map fun e => (e.2, e.1.1, e.1.2)) =
        buildVocabAux (insertA v idx (a ++ b)) (rest.map fun e => (e.2, e.1.1, e.1.2)) := by
      simp only [List.map_cons, buildVocabAux, ha, hb]
    have hlook : ∀ x, lookupA (insertA v idx (a ++ b)) x =
        if idx = x then some (a ++ b) else lookupA v x :=
      fun x => lookupA_insertA v idx x (a ++ b)
    have hdom2 : ∀ x, x < n + 1 → ∃ bs, lookupA (insertA v idx (a ++ b)) x = some bs := by
      intro x hx
      rw [hlook x]
      by_cases hix : idx = x
      · exact ⟨a ++ b, by rw [if_pos hix]⟩
      · rw [if_neg hix]
        exact hdom x (by omega)
    obtain ⟨vf, hvf, hpres, hent⟩ :=
      buildVocabAux_wf rest (n + 1) (insertA v idx (a ++ b)) hrest hdom2
    refine ⟨vf, by rw [hstep]; exact hvf, ?_, ?_⟩
    · intro x hx
      rw [hpres x (by omega), hlook x, if_neg (by omega)]
    · intro e he
      simp only [List.mem_cons] at he
      rcases he with he | he
      · subst he
        refine ⟨a, b, ?_, ?_, ?_⟩
        · rw [hpres p.1 (by omega), hlook p.1, if_neg (by omega)]
          exact ha
        · rw [hpres p.2 (by omega), hlook p.2, if_neg (by omega)]
          exact hb
        · rw [hpres idx (by omega), hlook idx, if_pos rfl]
      · exact hent e he

/-- `build_vocab` on a table of `TableWF 256` shape: bytes map to themselves
and every merge rule's entry concatenates its constituents' entries. -/
theorem buildVocab_wf (ms : Table) (h : TableWF 256 ms) :
    ∃ vf, buildVocab ms = some vf ∧
      (∀ x, x < 256 → lookupA vf x = some [x]) ∧
      (∀ e ∈ ms, ∃ a b, lookupA vf e.1.1 = some a ∧ lookupA vf e.1.2 = some b ∧
        lookupA vf e.2 = some (a ++ b)) := by
  obtain ⟨vf, hvf, hpres, hent⟩ :=
    buildVocabAux_wf ms 256 initVocab h (fun x hx => ⟨[x], initVocab_lookup x hx⟩)
  refine ⟨vf, ?_, ?_, hent⟩
  · rw [buildVocab, sortEntries_tableWF ms 256 h]
    exact hvf
  · intro x hx
    rw [hpres x hx]
    exact initVocab_lookup x hx

/-- The training-loop invariant: symbols stay below the next fresh id, the
table keeps the `TableWF 256` shape (so a selected pair is never already a
key), and an early exit happens only when no adjacent pair is left. -/
theorem trainLoop_inv :
    ∀ (n : Nat) (ids : List Nat) (ms : Table) (i : Nat),
      (∀ x ∈ ids, x < 256 + i) →
      ms.length = i →
      TableWF 256 ms →
      (∀ e ∈ ms, e.1 ∉ pairsOf ids) →
      (ms.map Prod.fst).Nodup →
      TableWF 256 (trainLoop (fun s => s) ids ms i n).2 ∧
      (trainLoop (fun s => s) ids ms i n).2.length ≤ i + n ∧
      ((trainLoop (fun s => s) ids ms i n).2.length < i + n →
        (trainLoop (fun s => s) ids ms i n).1.length ≤ 1) ∧
      ((trainLoop (fun s => s) ids ms i n).2.map Prod.fst).Nodup
  | 0, ids, ms, i, hids, hlen, hwf, hdisj, hnd => by
    simp only [trainLoop]
    exact ⟨hwf, by simp; omega, by simp; omega, hnd⟩
  | n + 1, ids, ms, i, hids, hlen, hwf, hdisj, hnd => by
    cases hsel : selectMax (getStats ids) with
    | none =>
      have heq : trainLoop (fun s => s) ids ms i (n + 1) = (ids, ms) := by
        simp only [trainLoop, hsel]
      rw [heq]
      refine ⟨hwf, by simp; omega, fun _ => ?_, hnd⟩
      exact (pairsOf_eq_nil ids).mp
        ((getStats_eq_nil ids).mp ((selectMax_eq_none (getStats ids)).mp hsel))
    | some pc =>
      obtain ⟨pair, c⟩ := pc
      have hpp : pair ∈ pairsOf ids :=
        mem_getStats ids (pair, c) (selectMax_mem _ _ hsel)
      have hm1 : pair.1 < 256 + i := hids _ (mem_of_mem_pairsOf hpp).1
      have hm2 : pair.2 < 256 + i := hids _ (mem_of_mem_pairsOf hpp).2
      have hnotkey : pair ∉ ms.map Prod.fst := by
        intro hkey
        rcases List.mem_map.mp hkey with ⟨e, he, heq⟩
        exact hdisj e he (heq ▸ hpp)
      have hins : insertA ms pair (256 + i) = ms ++ [(pair, 256 + i)] :=
        insertA_not_mem ms pair (256 + i) hnotkey
      have hstep : trainLoop (fun s => s) ids ms i (n + 1) =
          trainLoop (fun s => s) (merge ids pair (256 + i))
            (insertA ms pair (256 + i)) (i + 1) n := by
        simp only [trainLoop, hsel]
      have hids2 : ∀ x ∈ merge ids pair (256 + i), x < 256 + (i + 1) := by
        intro x hx
        rcases mem_merge pair (256 + i) ids x hx with h | h
        · omega
        · have := hids x h; omega
      have hlen2 : (insertA ms pair (256 + i)).length = i + 1 := by
        rw [hins]; simp [hlen]
      have hwf2 : TableWF 256 (insertA ms pair (256 + i)) := by
        rw [hins]
        exact tableWF_append ms 256 (256 + i) pair hwf (by omega) (by omega) (by omega)
      have hdisj2 : ∀ e ∈ insertA ms pair (256 + i),
          e.1 ∉ pairsOf (merge ids pair (256 + i)) := by
        rw [hins]
        intro e he
        simp only [List.mem_append, List.mem_singleton] at he
        rcases he with he | he
        · intro hq
          have hb := tableWF_bounds ms 256 hwf e he
          rcases pairsOf_merge pair (256 + i) ids e.1 hq with h | h | h
          · omega
          · omega
          · exact hdisj e he h
        · subst he
          exact merge_removes pair (256 + i) (by omega) (by omega) ids
      have hnd2 : ((insertA ms pair (256 + i)).map Prod.fst).Nodup := by
        rw [hins, List.map_append]
        rw [List.nodup_append]
        refine ⟨hnd, by simp, ?_⟩
        intro a ha hb
        simp only [List.map_cons, List.map_nil, List.mem_singleton] at hb
        subst hb
        exact hnotkey ha
      have ih := trainLoop_inv n (merge ids pair (256 + i))
        (insertA ms pair (256 + i)) (i + 1) hids2 hlen2 hwf2 hdisj2 hnd2
      rw [hstep]
      refine ⟨ih.1, by have := ih.2.1; omega, fun h => ih.2.2.1 (by omega), ih.2.2.2⟩

/-- The table `train` builds from a byte sequence has the `TableWF 256`
shape, with at most `numMerges` rules. -/
theorem train_wf (bs : List Nat) (numMerges : Nat) (hb : ∀ b ∈ bs, b < 256) :
    TableWF 256 (train bs numMerges) ∧ (train bs numMerges).length ≤ numMerges := by
  have h := trainLoop_inv numMerges bs [] 0 (fun x hx => by have := hb x hx; omega)
    rfl trivial (by simp) (by simp)
  rw [train, trainOrd]
  exact ⟨h.1, by have := h.2.1; omega⟩

/-- A vocabulary that is consistent with a merge table: every rule's entry is
the concatenation of its constituents' entries. -/
abbrev GoodVocab (v : Vocab) (m : Table) : Prop :=
  ∀ e ∈ m, ∃ a b, lookupA v e.1.1 = some a ∧ lookupA v e.1.2 = some b ∧
    lookupA v e.2 = some (a ++ b)

/-- A merge pass keeps the decoded byte string unchanged when the vocabulary
entry of the replacement id concatenates the entries of the replaced pair. -/
theorem decode_merge (v : Vocab) (p : Nat × Nat) (idx : Nat) (a b : List Nat)
    (ha : lookupA v p.1 = some a) (hb : lookupA v p.2 = some b)
    (hi : lookupA v idx = some (a ++ b)) :
    ∀ l, decode v (merge l p idx) = decode v l
  | [] => rfl
  | [x] => rfl
  | x :: y :: rest => by
    by_cases hm : x = p.1 ∧ y = p.2
    · obtain ⟨hx, hy⟩ := hm
      subst hx
      subst hy
      rw [merge, if_pos ⟨rfl, rfl⟩]
      have ih := decode_merge v p idx a b ha hb hi rest
      simp only [decode, hi, ha, hb, ih]
      cases decode v rest with
      | none => rfl
      | some r => simp [List.append_assoc]
    · rw [merge, if_neg hm]
      have ih := decode_merge v p idx a b ha hb hi (y :: rest)
      simp only [decode, ih]

theorem decode_bytes (v : Vocab) (hv : ∀ x, x < 256 → lookupA v x = some [x]) :
    ∀ bs : List Nat, (∀ b ∈ bs, b < 256) → decode v bs = some bs
  | [], _ => rfl
  | b :: rest, h => by
    have hb := hv b (h b (by simp))
    have ih := decode_bytes v hv rest (fun x hx => h x (by simp [hx]))
    simp [decode, hb, ih]

theorem minByVal_eq_none (m : Table) (l : List (Nat × Nat)) :
    minByVal m l = none ↔ l = [] := by
  cases l <;> simp [minByVal]

theorem encode_short (m : Table) (ids : List Nat) (h : ids.length < 2) :
    encode m ids = ids := by
  rw [encode]
  rw [if_neg (by omega)]

theorem encode_sel_none (m : Table) (ids : List Nat) (h : encodeSel m ids = none) :
    encode m ids = ids := by
  rw [encode]
  split
  · split
    · next pair hp => rw [h] at hp; cases hp
    · rfl
  · rfl

theorem encode_sel_some (m : Table) (ids : List Nat) (pair : Nat × Nat)
    (h : encodeSel m ids = some pair) (h2 : 2 ≤ ids.length) :
    encode m ids = encode m (merge ids pair ((lookupA m pair).getD 0)) := by
  rw [encode]
  rw [if_pos h2]
  split
  · next p hp =>
    rw [h] at hp
    injection hp with hp
    rw [hp]
  · next hp => rw [h] at hp; cases hp

/-- The encode loop never changes the decoded byte string, for a vocabulary
consistent with the merge table. -/
theorem decode_encode (m : Table) (v : Vocab) (hg : GoodVocab v m) (ids : List Nat) :
    decode v (encode m ids) = decode v ids := by
  generalize hN : ids.length = N
  induction N using Nat.strong_induction_on generalizing ids with
  | _ N ih =>
    by_cases h2 : 2 ≤ ids.length
    · cases hsel : encodeSel m ids with
      | none => rw [encode_sel_none m ids hsel]
      | some pair =>
        obtain ⟨hpp, hsome⟩ := encodeSel_mem m ids pair hsel
        obtain ⟨w, hw⟩ := Option.isSome_iff_exists.mp hsome
        have hmem := lookupA_mem m pair w hw
        obtain ⟨a, b, ha, hb, hcat⟩ := hg (pair, w) hmem
        have hlt := merge_length_lt pair w ids hpp
        rw [encode_sel_some m ids pair hsel h2, hw]
        simp only [Option.getD_some]
        rw [ih (merge ids pair w).length (by omega) (merge ids pair w) rfl]
        exact decode_merge v pair w a b ha hb hcat ids
    · rw [encode_short m ids (by omega)]

/-- Modelled from the spec: the Rust standard library's
`String::from_utf8_lossy`, which `decode` applies to the concatenated bytes
and whose code is not part of this repository.  Per the spec, every
undecodable byte span is replaced by the Unicode replacement character
U+FFFD (65533) and the operation never fails; valid sequences decode to
their code points.  The result is the list of decoded code points. -/
def utf8Lossy : List Nat → List Nat
  | [] => []
  | b :: rest =>
    if b < 128 then b :: utf8Lossy rest
    else if 194 ≤ b ∧ b ≤ 223 then
      match hr : rest with
      | [] => [65533]
      | c :: r2 =>
        if 128 ≤ c ∧ c ≤ 191 then ((b - 192) * 64 + (c - 128)) :: utf8Lossy r2
        else 65533 :: utf8Lossy rest
    else if 224 ≤ b ∧ b ≤ 239 then
      match hr : rest with
      | [] => [65533]
      | c :: r2 =>
        if (if b = 224 then 160 else 128) ≤ c ∧ c ≤ (if b = 237 then 159 else 191) then
          match hr2 : r2 with
          | [] => [65533]
          | d :: r3 =>
            if 128 ≤ d ∧ d ≤ 191 then
              ((b - 224) * 4096 + (c - 128) * 64 + (d - 128)) :: utf8Lossy r3
            else 65533 :: utf8Lossy r2
        else 65533 :: utf8Lossy rest
    else if 240 ≤ b ∧ b ≤ 244 then
      match hr : rest with
      | [] => [65533]
      | c :: r2 =>
        if (if b = 240 then 144 else 128) ≤ c ∧ c ≤ (if b = 244 then 143 else 191) then
          match hr2 : r2 with
          | [] => [65533]
          | d :: r3 =>
            if 128 ≤ d ∧ d ≤ 191 then
              match hr3 : r3 with
              | [] => [65533]
              | e :: r4 =>
                if 128 ≤ e ∧ e ≤ 191 then
                  ((b - 240) * 262144 + (c - 128) * 4096 + (d - 128) * 64 + (e - 128)) ::
                    utf8Lossy r4
                else 65533 :: utf8Lossy r3
            else 65533 :: utf8Lossy r2
        else 65533 :: utf8Lossy rest
    else 65533 :: utf8Lossy rest
termination_by l => l.length
decreasing_by all_goals (subst_vars; simp) <;> omega

/-- `decode` including the final lossy UTF-8 step: the decoded code points,
or `none` for the panic on a missing id. -/
def decodeLossy (vocab : Vocab) (ids : List Nat) : Option (List Nat) :=
  (decode vocab ids).map utf8Lossy

theorem decode_eq_none :
    ∀ (v : Vocab) (ids : List Nat),
      decode v ids = none ↔ ∃ i ∈ ids, lookupA v i = none
  | v, [] => by simp [decode]
  | v, i :: rest => by
    cases hl : lookupA v i with
    | none =>
      simp only [decode, hl]
      constructor
      · intro _
        exact ⟨i, by simp, hl⟩
      · intro _
        trivial
    | some bs =>
      cases hd : decode v rest with
      | none =>
        have ih := (decode_eq_none v rest).mp hd
        simp only [decode, hl, hd]
        constructor
        · intro _
          obtain ⟨j, hj, hjl⟩ := ih
          exact ⟨j, by simp [hj], hjl⟩
        · intro _
          trivial
      | some r =>
        have ih := decode_eq_none v rest
        rw [hd] at ih
        simp only [decode, hl, hd]
        constructor
        · intro h
          cases h
        · intro h
          obtain ⟨j, hj, hjl⟩ := h
          simp only [List.mem_cons] at hj
          rcases hj with hj | hj
          · subst hj
            rw [hl] at hjl
            cases hjl
          · cases ih.mpr ⟨j, hj, hjl⟩

theorem decode_all_present :
    ∀ (v : Vocab) (ids : List Nat),
      (∀ i ∈ ids, lookupA v i ≠ none) →
      decode v ids = some (ids.flatMap fun i => (lookupA v i).getD [])
  | v, [], _ => rfl
  | v, i :: rest, h => by
    cases hl : lookupA v i with
    | none => exact absurd hl (h i (by simp))
    | some bs =>
      have ih := decode_all_present v rest (fun j hj => h j (by simp [hj]))
      simp [decode, hl, ih]

/-- C1: for every valid-UTF-8 text `T` (represented by its UTF-8 byte list
`bs`, each byte `< 256`) and every merge count `numMerges ≥ 0`, decoding the
encoding of `T` under the vocabulary built from `train bs numMerges` returns
exactly the bytes of `T` (`String::from_utf8_lossy` is the identity on valid
UTF-8, so byte-list equality is exact string equality); in particular neither
`buildVocab` nor `decode` hits a missing key. -/
theorem round_trip (bs : List Nat) (numMerges : Nat) (hb : ∀ b ∈ bs, b < 256) :
    (buildVocab (train bs numMerges)).bind
      (fun v => decode v (encode (train bs numMerges) bs)) = some bs := by
  obtain ⟨hwf, _⟩ := train_wf bs numMerges hb
  obtain ⟨v, hv, hbytes, hent⟩ := buildVocab_wf (train bs numMerges) hwf
  rw [hv]
  show decode v (encode (train bs numMerges) bs) = some bs
  rw [decode_encode (train bs numMerges) v hent bs]
  exact decode_bytes v hbytes bs hb

theorem round_trip_witness :
    (buildVocab (train [104, 105] 3)).bind
      (fun v => decode v (encode (train [104, 105] 3) [104, 105])) =
      some [104, 105] :=
  round_trip [104, 105] 3 (by decide)

/-- C2: for every merge table and every input, the sequence `encode` returns
contains no adjacent pair that is a key of the table — the loop only stops
when nothing is mergeable (or fewer than two ids remain, when there is no
adjacent pair at all). -/
theorem encode_no_mergeable_pair (m : Table) (bs : List Nat) :
    ∀ q ∈ pairsOf (encode m bs), lookupA m q = none := by
  generalize hN : bs.length = N
  induction N using Nat.strong_induction_on generalizing bs with
  | _ N ih =>
    by_cases h2 : 2 ≤ bs.length
    · cases hsel : encodeSel m bs with
      | none =>
        rw [encode_sel_none m bs hsel]
        intro q hq
        have hfilter : (pairsOf bs).filter (fun q => (lookupA m q).isSome) = [] :=
          (minByVal_eq_none m _).mp hsel
        have hnot := List.filter_eq_nil_iff.mp hfilter q hq
        simpa [Option.not_isSome_iff_eq_none] using hnot
      | some pair =>
        obtain ⟨hpp, _⟩ := encodeSel_mem m bs pair hsel
        have hlt := merge_length_lt pair ((lookupA m pair).getD 0) bs hpp
        rw [encode_sel_some m bs pair hsel h2]
        exact ih (merge bs pair ((lookupA m pair).getD 0)).length (by omega) _ rfl
    · rw [encode_short m bs (by omega)]
      intro q hq
      rw [(pairsOf_eq_nil bs).mpr (by omega)] at hq
      cases hq

theorem encode_no_mergeable_pair_witness :
    lookupA [((2, 3), 256)] (1, 2) = none :=
  encode_no_mergeable_pair [((2, 3), 256)] [1, 2] (1, 2)
    (by rw [encode_sel_none [((2, 3), 256)] [1, 2] rfl]; decide)

/-- C6: `merge` scans left to right with one cursor, replacing
non-overlapping occurrences greedily: on a match it emits the replacement and
advances by 2, otherwise it emits the symbol and advances by 1, the last
element is copied verbatim; `merge [X, X, X] (X, X) R = [R, X]` and
`merge [1, 2, 3, 1, 2] (1, 2) 4 = [4, 3, 4]`. -/
theorem merge_scan_spec :
    (∀ x r : Nat, merge [x, x, x] (x, x) r = [r, x]) ∧
    merge [1, 2, 3, 1, 2] (1, 2) 4 = [4, 3, 4] ∧
    (∀ (a b : Nat) (rest : List Nat) (p : Nat × Nat) (idx : Nat),
      merge (a :: b :: rest) p idx =
        if a = p.1 ∧ b = p.2 then idx :: merge rest p idx
        else a :: merge (b :: rest) p idx) ∧
    (∀ (x : Nat) (p : Nat × Nat) (idx : Nat), merge [x] p idx = [x]) := by
  refine ⟨?_, by decide, fun a b rest p idx => rfl, fun x p idx => rfl⟩
  intro x r
  simp [merge]

/-- C7: the encode loop terminates: whenever a pair is selected the sequence
has length at least 2 and the merge strictly shortens it, and the loop
returns its input unchanged exactly when the sequence is shorter than 2 or no
adjacent pair is a key of the table. -/
theorem encode_loop_behavior (m : Table) (ids : List Nat) :
    (2 ≤ ids.length ∧ ∃ pair, encodeSel m ids = some pair ∧
      (merge ids pair ((lookupA m pair).getD 0)).length < ids.length ∧
      encode m ids = encode m (merge ids pair ((lookupA m pair).getD 0))) ∨
    ((ids.length < 2 ∨ encodeSel m ids = none) ∧ encode m ids = ids) := by
  by_cases h2 : 2 ≤ ids.length
  · cases hsel : encodeSel m ids with
    | none => exact Or.inr ⟨Or.inr rfl, encode_sel_none m ids hsel⟩
    | some pair =>
      obtain ⟨hpp, _⟩ := encodeSel_mem m ids pair hsel
      exact Or.inl ⟨h2, pair, rfl,
        merge_length_lt pair ((lookupA m pair).getD 0) ids hpp,
        encode_sel_some m ids pair hsel h2⟩
  · exact Or.inr ⟨Or.inl (by omega), encode_short m ids (by omega)⟩

/-- C8: `decode` fails (the `vocab[idx]` panic, modelled as `none`) exactly
when some id has no vocabulary entry — it never silently substitutes a value
— and when every id is present it returns the lossy UTF-8 interpretation of
the in-order concatenation of the ids' byte expansions (`utf8Lossy` is total:
undecodable spans become the replacement character, never a failure). -/
theorem decode_missing_key (v : Vocab) (ids : List Nat) :
    (decodeLossy v ids = none ↔ ∃ i ∈ ids, lookupA v i = none) ∧
    ((∀ i ∈ ids, lookupA v i ≠ none) →
      decodeLossy v ids =
        some (utf8Lossy (ids.flatMap fun i => (lookupA v i).getD []))) := by
  constructor
  · rw [decodeLossy, ← decode_eq_none v ids]
    cases decode v ids <;> simp
  · intro h
    rw [decodeLossy, decode_all_present v ids h]
    rfl

/-- C10: `merge` is total on degenerate inputs: the empty sequence maps to
the empty sequence and a one-element sequence is returned unchanged for every
pair and replacement (the `ids.len() - 1` bound is reached only with a
non-empty sequence, so no underflow or out-of-range index exists in the
model), and the output never exceeds the input in length. -/
theorem merge_degenerate_total :
    (∀ (p : Nat × Nat) (idx : Nat), merge [] p idx = []) ∧
    (∀ (x : Nat) (p : Nat × Nat) (idx : Nat), merge [x] p idx = [x]) ∧
    (∀ (ids : List Nat) (p : Nat × Nat) (idx : Nat),
      (merge ids p idx).length ≤ ids.length) :=
  ⟨fun _ _ => rfl, fun _ _ _ => rfl, fun ids p idx => merge_length_le p idx ids⟩

/-- For C3: on an input that already contains the symbol 256, training can
re-select a pair that is already a key (its merge does not eliminate it when
the fresh id equals one of its components' values), so the table re-maps it
and the final assigned ids are `[257]` — not `{256, ..., 256 + k - 1}` for
any `k ≤ 2`. -/
theorem train_id_range_counterexample :
    (train [1, 1, 256, 1, 1, 256, 1, 256] 2).map Prod.snd = [257] ∧
    ∀ k, k < 3 →
      ¬ ((train [1, 1, 256, 1, 1, 256, 1, 256] 2).map Prod.snd).Perm
          (List.range' 256 k) := by
  decide

/-- C3 (amended): for every input sequence of byte symbols (all `< 256`) and
every merge count, the assigned ids of `train`'s table are exactly
`256, 257, ..., 256 + k - 1` in assignment order, for some `k ≤ numMerges`
(so ids strictly increase, each id belongs to exactly one rule), and no pair
is ever inserted twice (the keys are distinct).  The restriction to byte
inputs is forced: `train_id_range_counterexample` breaks the claim when an
input symbol collides with a fresh id. -/
theorem train_id_assignment (ids : List Nat) (numMerges : Nat)
    (hb : ∀ x ∈ ids, x < 256) :
    ∃ k, k ≤ numMerges ∧ (train ids numMerges).map Prod.snd = List.range' 256 k ∧
      ((train ids numMerges).map Prod.fst).Nodup := by
  have h := trainLoop_inv numMerges ids [] 0 (fun x hx => by have := hb x hx; omega)
    rfl trivial (by simp) (by simp)
  refine ⟨(train ids numMerges).length, ?_, ?_, ?_⟩
  · rw [train, trainOrd]
    have := h.2.1
    omega
  · have hwf : TableWF 256 (train ids numMerges) := by rw [train, trainOrd]; exact h.1
    exact tableWF_map_snd (train ids numMerges) 256 hwf
  · rw [train, trainOrd]
    exact h.2.2.2

theorem train_id_assignment_witness :
    ∃ k, k ≤ 5 ∧ (train [1, 2] 5).map Prod.snd = List.range' 256 k ∧
      ((train [1, 2] 5).map Prod.fst).Nodup :=
  train_id_assignment [1, 2] 5 (by decide)

set_option maxRecDepth 4000 in
/-- For C4: `train` on an input containing the symbol 256 produces the table
`[((1, 256), 257)]`, whose rule references the id 256 that has no vocabulary
entry, so `build_vocab` hits a missing key (the modelled panic `none`). -/
theorem buildVocab_missing_counterexample :
    buildVocab (train [1, 1, 256, 1, 1, 256, 1, 256] 2) = none := by
  decide

/-- C4 (amended): for every merge table produced by `train` on a sequence of
byte symbols (all `< 256`), `build_vocab` succeeds and its vocabulary covers
every id referenced in the table: each byte id maps to its single byte, and
each rule `(p0, p1) → idx` has its `p0` and `p1` entries present (the lookups
never miss) with the `idx` entry their concatenation.  The byte-input
restriction is forced by `buildVocab_missing_counterexample`. -/
theorem buildVocab_complete (bs : List Nat) (numMerges : Nat)
    (hb : ∀ b ∈ bs, b < 256) :
    ∃ v, buildVocab (train bs numMerges) = some v ∧
      (∀ x, x < 256 → lookupA v x = some [x]) ∧
      (∀ e ∈ train bs numMerges, ∃ a b, lookupA v e.1.1 = some a ∧
        lookupA v e.1.2 = some b ∧ lookupA v e.2 = some (a ++ b)) :=
  buildVocab_wf (train bs numMerges) (train_wf bs numMerges hb).1

theorem buildVocab_complete_witness :
    ∃ v, buildVocab (train [104, 105] 1) = some v ∧
      (∀ x, x < 256 → lookupA v x = some [x]) ∧
      (∀ e ∈ train [104, 105] 1, ∃ a b, lookupA v e.1.1 = some a ∧
        lookupA v e.1.2 = some b ∧ lookupA v e.2 = some (a ++ b)) :=
  buildVocab_complete [104, 105] 1 (by decide)

/-- For C5: on `[1, 2, 3]` no adjacent pair occurs more than once, yet
`train` with budget 2 still records 2 merges — the code merges pairs of count
1 and does not stop when merging ceases to help. -/
theorem train_early_stop_counterexample :
    (∀ e ∈ getStats [1, 2, 3], e.2 ≤ 1) ∧ (train [1, 2, 3] 2).length = 2 := by
  decide

/-- C5 (amended): `train` produces at most `numMerges` rules, and (on byte
inputs) returns fewer than `numMerges` rules only when the sequence is
exhausted — the loop's own exit is an empty statistics map, i.e. the current
sequence has length at most 1.  A pair occurring only once is still merged,
so "merging no longer helps" does not stop training; only pair exhaustion
does (see `train_early_stop_counterexample`). -/
theorem train_merge_budget (ids : List Nat) (numMerges : Nat)
    (hb : ∀ x ∈ ids, x < 256) :
    (train ids numMerges).length ≤ numMerges ∧
    ((train ids numMerges).length < numMerges →
      (trainLoop (fun s => s) ids [] 0 numMerges).1.length ≤ 1) := by
  have h := trainLoop_inv numMerges ids [] 0 (fun x hx => by have := hb x hx; omega)
    rfl trivial (by simp) (by simp)
  rw [train, trainOrd]
  exact ⟨by have := h.2.1; omega, fun hlt => h.2.2.1 (by omega)⟩

theorem train_merge_budget_witness :
    (train [1, 2] 5).length ≤ 5 ∧
    ((train [1, 2] 5).length < 5 →
      (trainLoop (fun s => s) [1, 2] [] 0 5).1.length ≤ 1) :=
  train_merge_budget [1, 2] 5 (by decide)

/-- For C9: the pair selected by training's `max_by_key` depends on the
iteration order of the statistics map when several pairs tie for the maximal
count: the same input and merge count yield different tables under two orders
of the same statistics (here the canonical order and its reverse), so the
selection under ties is not determined by the inputs alone. -/
theorem train_order_counterexample :
    (getStats [1, 2, 3]).Perm ((getStats [1, 2, 3]).reverse) ∧
    trainOrd (fun s => s.reverse) [1, 2, 3] 1 ≠ trainOrd (fun s => s) [1, 2, 3] 1 := by
  decide

/-- C9 (amended): every core operation is a pure function of its inputs plus
the host map's iteration order, and the order only matters at `train`'s
tie-break: whenever exactly one entry attains the maximal count, `selectMax`
(the embedding of `max_by_key`) picks that entry under every iteration order
of the same statistics; under ties the choice is order-dependent
(`train_order_counterexample`). -/
theorem selectMax_order_independent (l l2 : List ((Nat × Nat) × Nat))
    (x : (Nat × Nat) × Nat) (hperm : l.Perm l2) (hx : x ∈ l)
    (hmax : ∀ y ∈ l, y ≠ x → y.2 < x.2) :
    selectMax l = some x ∧ selectMax l2 = some x := by
  refine ⟨selectMax_unique l x hx hmax, selectMax_unique l2 x (hperm.mem_iff.mp hx) ?_⟩
  intro y hy hne
  exact hmax y (hperm.mem_iff.mpr hy) hne

theorem selectMax_order_independent_witness :
    selectMax [((1, 2), 2), ((2, 3), 1)] = some ((1, 2), 2) ∧
    selectMax [((2, 3), 1), ((1, 2), 2)] = some ((1, 2), 2) :=
  selectMax_order_independent [((1, 2), 2), ((2, 3), 1)] [((2, 3), 1), ((1, 2), 2)]
    ((1, 2), 2) (by decide) (by decide) (by decide)

end BPE
